import Mathlib

/-!
# Verification of the bkgrep scan-extract-deduplicate-classify pipeline

Shallow embedding of `src/main.rs` and `src/scanner.rs` of bcorrigan/bkgrep.
Machine integers are modelled as `Nat`/`Int` with explicit reduction mod 2^64
where the code wraps; fallible operations (Rust panics via `unwrap`) are
modelled with `Except`; external collaborators (the lingua language detector,
the epub document parser, the scraper HTML cleaner, the random page picker)
are parameters of the functions that call them, exactly at the call sites the
code uses them.
-/

set_option autoImplicit false

namespace Bkgrep

/-! ### 64-bit arithmetic helpers -/

def U64 : Nat := 18446744073709551616

def wrap64 (n : Nat) : Nat := n % U64

/-- `u64::rotate_left` for `x < 2^64`. -/
def rotl64 (x b : Nat) : Nat := wrap64 ((x <<< b) ||| (x >>> (64 - b)))

/-! ### SipHash-1-3, the algorithm behind `std::collections::hash_map::DefaultHasher`

`DefaultHasher::new()` is `SipHasher13::new_with_keys(0, 0)`.  `BookMetadata::hash_md`
(src/main.rs:24-28) feeds the hasher and takes `finish() as i64`. -/

structure SipState where
  v0 : Nat
  v1 : Nat
  v2 : Nat
  v3 : Nat

/-- One SIPROUND (wrapping adds, rotate-lefts and xors on 64 bits). -/
def sipRound (s : SipState) : SipState :=
  let v0 := wrap64 (s.v0 + s.v1)
  let v1 := rotl64 s.v1 13
  let v1 := v1 ^^^ v0
  let v0 := rotl64 v0 32
  let v2 := wrap64 (s.v2 + s.v3)
  let v3 := rotl64 s.v3 16
  let v3 := v3 ^^^ v2
  let v0 := wrap64 (v0 + v3)
  let v3 := rotl64 v3 21
  let v3 := v3 ^^^ v0
  let v2 := wrap64 (v2 + v1)
  let v1 := rotl64 v1 17
  let v1 := v1 ^^^ v2
  let v2 := rotl64 v2 32
  ⟨v0, v1, v2, v3⟩

/-- Absorb one 8-byte message word: `v3 ^= m; SIPROUND; v0 ^= m` (one
compression round, this is SipHash-1-3). -/
def sipCompress (s : SipState) (m : Nat) : SipState :=
  let s1 : SipState := { s with v3 := s.v3 ^^^ m }
  let s2 := sipRound s1
  { s2 with v0 := s2.v0 ^^^ m }

/-- Little-endian value of a byte list. -/
def le64 : List Nat → Nat
  | [] => 0
  | b :: bs => b + 256 * le64 bs

/-- Consume full 8-byte blocks, then finalize: the last block is
`((len & 0xff) << 56) | remaining-bytes`, then `v2 ^= 0xff` and three
finalization rounds, returning `v0 ^ v1 ^ v2 ^ v3`. -/
def sipBlocks (st : SipState) (msg : List Nat) (len : Nat) : Nat :=
  match msg with
  | b0 :: b1 :: b2 :: b3 :: b4 :: b5 :: b6 :: b7 :: rest =>
    sipBlocks (sipCompress st (le64 [b0, b1, b2, b3, b4, b5, b6, b7])) rest len
  | tailBytes =>
    let b := wrap64 (((len % 256) <<< 56) + le64 tailBytes)
    let stf := sipCompress st b
    let stf2 : SipState := { stf with v2 := stf.v2 ^^^ 0xff }
    let stf3 := sipRound (sipRound (sipRound stf2))
    ((stf3.v0 ^^^ stf3.v1) ^^^ stf3.v2) ^^^ stf3.v3

/-- SipHash-1-3 of a byte stream with the standard initial state. -/
def sipHash13 (k0 k1 : Nat) (msg : List Nat) : Nat :=
  sipBlocks
    ⟨k0 ^^^ 0x736f6d6570736575, k1 ^^^ 0x646f72616e646f6d,
     k0 ^^^ 0x6c7967656e657261, k1 ^^^ 0x7465646279746573⟩
    msg msg.length

/-! ### UTF-8 byte streams (Rust `String` contents and `str::len`) -/

/-- UTF-8 encoding of one scalar value. -/
def utf8EncodeChar (n : Nat) : List Nat :=
  if n < 0x80 then [n]
  else if n < 0x800 then [0xC0 + n / 64, 0x80 + n % 64]
  else if n < 0x10000 then [0xE0 + n / 4096, 0x80 + n / 64 % 64, 0x80 + n % 64]
  else [0xF0 + n / 262144, 0x80 + n / 4096 % 64, 0x80 + n / 64 % 64, 0x80 + n % 64]

/-- The bytes of a Rust `String` (UTF-8). -/
def utf8Bytes (s : String) : List Nat :=
  s.data.foldr (fun c acc => utf8EncodeChar c.toNat ++ acc) []

/-- Rust `str::len` — the byte length, not the char count. -/
def utf8Len (s : String) : Nat := (utf8Bytes s).length

/-- The byte stream the derived `Hash` impl of `Option<String>` writes on a
64-bit platform: the discriminant as `write_usize` (8 little-endian bytes,
0 for `None`, 1 for `Some`), then for `Some` the string bytes followed by the
`0xFF` terminator that `Hash for str` appends. -/
def optStrHashBytes : Option String → List Nat
  | none => [0, 0, 0, 0, 0, 0, 0, 0]
  | some s => [1, 0, 0, 0, 0, 0, 0, 0] ++ utf8Bytes s ++ [0xff]

/-! ### BookMetadata (src/main.rs:7-38) -/

structure BookMetadata where
  id : Int
  title : Option String
  description : Option String
  publisher : Option String
  creator : Option String
  file : String
  filesize : Int

/-- `u64 as i64` (two's complement reinterpretation). -/
def i64OfU64 (n : Nat) : Int :=
  if n < 9223372036854775808 then (n : Int) else (n : Int) - (U64 : Int)

/-- `BookMetadata::hash_md`: `DefaultHasher` over the tuple
`(&self.title, &self.publisher, &self.creator)` (the manual `Hash` impl,
src/main.rs:31-38), then `finish() as i64`. -/
def hash_md (bm : BookMetadata) : Int :=
  i64OfU64 (sipHash13 0 0
    (optStrHashBytes bm.title ++ optStrHashBytes bm.publisher ++
      optStrHashBytes bm.creator))

example :
    hash_md ⟨0, none, none, none, none, "", 0⟩ ≠
      hash_md ⟨0, some "", none, some "", some "", "", 0⟩ := by decide

/-! ### Creator normalization (`unmangle_creator`, src/scanner.rs:245-252) -/

/-- Rust `char::is_whitespace` — the Unicode `White_Space` property. -/
def rustIsWs (c : Char) : Bool :=
  [9, 10, 11, 12, 13, 32, 0x85, 0xA0, 0x1680,
   0x2000, 0x2001, 0x2002, 0x2003, 0x2004, 0x2005, 0x2006, 0x2007,
   0x2008, 0x2009, 0x200A, 0x2028, 0x2029, 0x202F, 0x205F, 0x3000].contains c.toNat

/-- Rust `str::split_whitespace`: maximal runs of non-whitespace characters,
empty tokens discarded. -/
def words : List Char → List (List Char)
  | [] => []
  | c :: cs =>
    if rustIsWs c then words cs
    else
      match cs, words cs with
      | [], _ => [[c]]
      | d :: _, rest =>
        if rustIsWs d then [c] :: rest
        else
          match rest with
          | [] => [[c]]
          | w :: ws => (c :: w) :: ws

/-- `itertools::join(" ")`: interleave a single space between the tokens. -/
def joinSp : List (List Char) → List Char
  | [] => []
  | [w] => w
  | w :: ws => w ++ ' ' :: joinSp ws

/-- `creator.split_whitespace().join(" ")`. -/
def collapse (l : List Char) : List Char := joinSp (words l)

/-- Rust `str::split(',')`: split at every comma, keeping empty parts. -/
def splitComma : List Char → List (List Char)
  | [] => [[]]
  | c :: cs =>
    if c = ',' then [] :: splitComma cs
    else
      match splitComma cs with
      | p :: ps => (c :: p) :: ps
      | [] => [[c]]

/-- Drop trailing whitespace (`char::is_whitespace`). -/
def trimEnd (l : List Char) : List Char := (l.reverse.dropWhile rustIsWs).reverse

/-- Rust `str::trim`: drop leading and trailing whitespace. -/
def rustTrim (l : List Char) : List Char := trimEnd (l.dropWhile rustIsWs)

/-- `unmangle_creator` on the character list: collapse whitespace; if the
result has exactly one comma, split there and re-render as
`"{given} {family}"` with both parts trimmed (`parts[1]` is the text after
the comma, `parts[0]` the text before it); otherwise return the collapsed
string. -/
def unmangleL (creator : List Char) : List Char :=
  let unspaced := collapse creator
  if unspaced.count ',' = 1 then
    let parts := splitComma unspaced
    rustTrim (parts.getD 1 []) ++ ' ' :: rustTrim (parts.getD 0 [])
  else unspaced

/-- `unmangle_creator` on Rust `String`s. -/
def unmangle_creator (s : String) : String := String.mk (unmangleL s.data)

-- the unit tests of src/scanner.rs:254-269
example : unmangle_creator "H.P. Lovecraft" = "H.P. Lovecraft" := by decide
example : unmangle_creator "Lovecraft, H.P." = "H.P. Lovecraft" := by decide
example : unmangle_creator "Lovecraft,  H.P. " = "H.P. Lovecraft" := by decide
example : unmangle_creator "H.P.  Lovecraft" = "H.P. Lovecraft" := by decide
example : unmangle_creator "H.P. \t  Lovecraft" = "H.P. Lovecraft" := by decide
example : unmangle_creator " H.P.\t \tLovecraft " = "H.P. Lovecraft" := by decide
example : unmangle_creator "Smith, Jane, PhD" = "Smith, Jane, PhD" := by decide
-- the C7 counterexample candidate
example : unmangle_creator "a," = " a" := by decide
example : unmangle_creator (unmangle_creator "a,") = "a" := by decide

deriving instance DecidableEq for Except

/-! ### Dedup resolver (the shared map of `process_batch`, src/scanner.rs:100-141) -/

/-- `struct Book` (src/scanner.rs:21-25). -/
structure Book where
  location : String
  size : Int
deriving DecidableEq

/-- The per-record dedup outcome: first sighting keeps the record, a collision
reports one location as the duplicate (the `DUP:` line). -/
inductive Outcome where
  | Kept
  | Dup (loc : String)
deriving DecidableEq

/-- The `HashMap<i64, Book>` guarded by the `RwLock`, modelled as an
association list where an insert shadows the previous binding. -/
abbrev DedupMap := List (Int × Book)

def mapFind : DedupMap → Int → Option Book
  | [], _ => none
  | (k, b) :: m, fp => if k = fp then some b else mapFind m fp

/-- `HashMap::insert` (overwrites any previous entry for the key). -/
def mapInsert (m : DedupMap) (fp : Int) (b : Book) : DedupMap := (fp, b) :: m

/-- `Scanner::better_dup` (src/scanner.rs:191-197). -/
def better_dup (old nb : Book) : Bool :=
  if nb.size > old.size then true else false

/-- The dedup section of `process_batch` for one record, run atomically
(sequential semantics): absent fingerprint inserts and keeps; present
fingerprint compares sizes via `better_dup`, replacing and reporting the old
location when the new record is strictly larger, otherwise reporting the new
location and leaving the map unchanged. -/
def resolve (m : DedupMap) (fp : Int) (nb : Book) : DedupMap × Outcome :=
  match mapFind m fp with
  | none => (mapInsert m fp nb, Outcome.Kept)
  | some old =>
    if better_dup old nb then (mapInsert m fp nb, Outcome.Dup old.location)
    else (m, Outcome.Dup nb.location)

/-- Process a sequence of records, one `resolve` call per record, pairing each
outcome with its record's fingerprint. -/
def processSeq (m : DedupMap) : List (Int × Book) → DedupMap × List (Int × Outcome)
  | [] => (m, [])
  | r :: rs =>
    let step := resolve m r.1 r.2
    let rest := processSeq step.1 rs
    (rest.1, (r.1, step.2) :: rest.2)

def recCount (fp : Int) (rs : List (Int × Book)) : Nat :=
  rs.countP (fun r => r.1 == fp)

def keptCount (fp : Int) (outs : List (Int × Outcome)) : Nat :=
  outs.countP (fun o => o.1 == fp && o.2 == Outcome.Kept)

def dupCount (fp : Int) (outs : List (Int × Outcome)) : Nat :=
  outs.countP (fun o =>
    o.1 == fp && match o.2 with | Outcome.Dup _ => true | _ => false)

/-! ### Concurrent interleaving model of the dedup section

`process_batch` runs the section above on a rayon worker pool.  Each lock
acquisition is one atomic step; between steps other workers may run.  The
phases mirror src/scanner.rs:110-126 exactly: the read-lock `contains_key`
check, the write-lock insert (with **no** re-check of presence), the read-lock
`get(..).unwrap().clone()`, and the `better_dup` compare / `DUP` print /
write-lock insert. -/

structure CallerTask where
  fp : Int
  book : Book
deriving DecidableEq

inductive CallerPhase where
  | start                     -- before the read-lock `contains_key` check
  | sawAbsent                 -- the read lock saw the fingerprint absent
  | sawPresent                -- the read lock saw it present
  | gotOld (old : Book)       -- cloned the retained entry under a second read lock
  | dupEmitted (old : Book)   -- printed `DUP:old`, write-lock insert still pending
  | finished (o : Outcome)
  | panicked                  -- `get(&bm.id).unwrap()` found nothing
deriving DecidableEq

def stepCaller (m : DedupMap) (t : CallerTask) :
    CallerPhase → DedupMap × CallerPhase
  | CallerPhase.start =>
    match mapFind m t.fp with
    | none => (m, CallerPhase.sawAbsent)
    | some _ => (m, CallerPhase.sawPresent)
  | CallerPhase.sawAbsent =>
    (mapInsert m t.fp t.book, CallerPhase.finished Outcome.Kept)
  | CallerPhase.sawPresent =>
    match mapFind m t.fp with
    | some old => (m, CallerPhase.gotOld old)
    | none => (m, CallerPhase.panicked)
  | CallerPhase.gotOld old =>
    if better_dup old t.book then (m, CallerPhase.dupEmitted old)
    else (m, CallerPhase.finished (Outcome.Dup t.book.location))
  | CallerPhase.dupEmitted old =>
    (mapInsert m t.fp t.book, CallerPhase.finished (Outcome.Dup old.location))
  | CallerPhase.finished o => (m, CallerPhase.finished o)
  | CallerPhase.panicked => (m, CallerPhase.panicked)

structure ConcState where
  map : DedupMap
  callers : List (CallerTask × CallerPhase)
deriving DecidableEq

/-- Let worker `i` perform its next atomic step. -/
def stepAt (st : ConcState) (i : Nat) : ConcState :=
  match st.callers[i]? with
  | none => st
  | some (t, ph) =>
    let r := stepCaller st.map t ph
    ⟨r.1, st.callers.set i (t, r.2)⟩

/-- Run a schedule: a list of worker indices, one atomic step each. -/
def runSched (st : ConcState) : List Nat → ConcState
  | [] => st
  | i :: is => runSched (stepAt st i) is

def initConc (tasks : List CallerTask) : ConcState :=
  ⟨[], tasks.map (fun t => (t, CallerPhase.start))⟩

/-! ### Metadata extraction (`get_first_fd` and `parse_epub`, src/scanner.rs:211-242) -/

def listLookup : List (String × List String) → String → Option (List String)
  | [], _ => none
  | (k, v) :: md, f => if k = f then some v else listLookup md f

/-- `get_first_fd`: `md.get(mdfield)`, and when present
`vec.get(0).unwrap().clone()` — the `unwrap` panics on an empty value list,
surfaced as the `Except.error` case. -/
def get_first_fd (mdfield : String) (md : List (String × List String)) :
    Except String (Option String) :=
  match listLookup md mdfield with
  | some vec =>
    match vec with
    | v :: _ => Except.ok (some v)
    | [] => Except.error "panicked: called Option::unwrap on a None value"
  | none => Except.ok none

/-- The four-field extraction step of `parse_epub` (src/scanner.rs:223-231):
first value of title, description and publisher, creator additionally passed
through `unmangle_creator`. -/
def extractFields (md : List (String × List String)) :
    Except String (Option String × Option String × Option String × Option String) := do
  let title ← get_first_fd "title" md
  let description ← get_first_fd "description" md
  let publisher ← get_first_fd "publisher" md
  let creator ← get_first_fd "creator" md
  pure (title, description, publisher, creator.map unmangle_creator)

/-! ### Language classifier (`Scanner::is_english`, src/scanner.rs:146-189)

The lingua detector, the scraper fragment cleaner, the epub re-open and the
random page indices are external collaborators, passed as parameters at the
exact call sites the code uses them. -/

/-- A stand-in for lingua's language enumeration; the code only distinguishes
`English` from every other detected language. -/
inductive Language where
  | English
  | French
  | German
  | Russian
deriving DecidableEq

/-- `Option::is_some_and`. -/
def isSomeAnd (o : Option String) (p : String → Bool) : Bool :=
  match o with
  | some s => p s
  | none => false

/-- The re-opened epub: `get_current_str()` per page, `none` when fetching the
page text fails. -/
structure EpubContent where
  pages : List (Option String)
deriving DecidableEq

/-- `add_content` (src/scanner.rs:200-210): push a space, then the chosen
page's text, with a fetch failure silently replaced by the empty string
(`unwrap_or`). -/
def add_content (doc : EpubContent) (randPage : Nat) (content : String) : String :=
  content ++ " " ++ ((doc.pages.getD randPage none).getD "")

/-- `Scanner::is_english`.  `detector` is `self.detector`; `cleanFragment`
models `Html::parse_fragment` plus the text-node walk; `openDoc` is the result
of `EpubDoc::new(&bm.file)` whose `unwrap` panics (`Except.error`) on failure;
`p1 p2 p3` are the three random page indices. -/
def is_english (detector : Option (String → Option Language))
    (cleanFragment : String → String) (openDoc : Option EpubContent)
    (p1 p2 p3 : Nat) (bm : BookMetadata) : Except String Bool :=
  match detector with
  | some detect =>
    if isSomeAnd bm.description (fun s => utf8Len s > 50) then
      Except.ok
        (match detect ((bm.title.getD "") ++ " " ++ (bm.description.getD "")) with
         | some Language.English => true
         | some _ => false
         | none => true)
    else
      match openDoc with
      | none => Except.error "panicked: EpubDoc::new(&bm.file).unwrap() failed"
      | some doc =>
        let content := add_content doc p3 (add_content doc p2 (add_content doc p1 ""))
        let cleaned := cleanFragment content
        Except.ok
          (match detect cleaned with
           | some Language.English => true
           | some _ => false
           | none => true)
  | none => Except.ok true

/-- Which tier `is_english` takes for a record, read off the same condition
the code branches on. -/
inductive TierInput where
  | metadataText (text : String)
  | contentSample
deriving DecidableEq

def tierOf (bm : BookMetadata) : TierInput :=
  if isSomeAnd bm.description (fun s => utf8Len s > 50) then
    TierInput.metadataText ((bm.title.getD "") ++ " " ++ (bm.description.getD ""))
  else TierInput.contentSample

/-! ### Per-file pipeline (the `process_batch` closure, src/scanner.rs:103-136) -/

inductive Tag where
  | DUP (loc : String)
  | FRN (loc : String)
  | ERROR (loc : String)
deriving DecidableEq

/-- The body of the per-file closure: a parse failure prints `ERROR:` and the
file is skipped; a record that fails `is_english` prints `FRN:`; otherwise the
record enters the dedup map.  A panic inside `is_english` propagates out of
the closure (`Except.error`), aborting the batch. -/
def processFile (bookPath : String) (parseResult : Except String BookMetadata)
    (detector : Option (String → Option Language)) (cleanFragment : String → String)
    (openDoc : Option EpubContent) (p1 p2 p3 : Nat) (m : DedupMap) :
    Except String (DedupMap × List Tag) :=
  match parseResult with
  | Except.error _ => Except.ok (m, [Tag.ERROR bookPath])
  | Except.ok bm =>
    match is_english detector cleanFragment openDoc p1 p2 p3 bm with
    | Except.error e => Except.error e
    | Except.ok true =>
      let nb : Book := ⟨bookPath, bm.filesize⟩
      match resolve m bm.id nb with
      | (m2, Outcome.Kept) => Except.ok (m2, [])
      | (m2, Outcome.Dup loc) => Except.ok (m2, [Tag.DUP loc])
    | Except.ok false => Except.ok (m, [Tag.FRN bookPath])

/-! ### Directory walk (`is_hidden` and `scan_dirs`, src/scanner.rs:27-33, 67-95) -/

/-! A directory tree: regular files and directories with an ordered list of
children (a mutual pair so the recursors compute). -/
mutual
inductive FsTree where
  | file (name : String)
  | dir (name : String) (children : FsForest)
inductive FsForest where
  | nil
  | cons (e : FsTree) (es : FsForest)
end

/-- `is_hidden` (src/scanner.rs:27-33): `file_name` starts with `"."`
(entries with UTF-8 names; a non-UTF-8 name yields `false` in the code and is
out of this model). -/
def is_hidden (name : String) : Bool :=
  match name.data with
  | [] => false
  | c :: _ => c = '.'

def revEndsWith : List Char → List Char → Bool
  | _, [] => true
  | [], _ :: _ => false
  | c :: cs, d :: ds => c = d && revEndsWith cs ds

/-- Rust `str::ends_with`. -/
def strEndsWith (s sfx : String) : Bool :=
  revEndsWith s.data.reverse sfx.data.reverse

/-! `WalkDir` traversal with `filter_entry(|e| !is_hidden(e))`: a hidden entry
is pruned together with everything beneath it.  `walkTree` yields
`(path, file_name, is_file)` for every surviving entry, the entry itself
before its children. -/
mutual
def walkTree (p : String) : FsTree → List (String × String × Bool)
  | FsTree.file n => if is_hidden n then [] else [(p ++ "/" ++ n, n, true)]
  | FsTree.dir n cs =>
    if is_hidden n then []
    else (p ++ "/" ++ n, n, false) :: walkForest (p ++ "/" ++ n) cs
def walkForest (p : String) : FsForest → List (String × String × Bool)
  | FsForest.nil => []
  | FsForest.cons e es => walkTree p e ++ walkForest p es
end

/-- The entries `scan_dirs` pushes into the batch: surviving entries whose
path string ends with `.epub` and which are regular files
(src/scanner.rs:74-77). -/
def dispatched (root : FsTree) : List (String × String × Bool) :=
  (walkTree "" root).filter (fun e => strEndsWith e.1 ".epub" && e.2.2)

example :
    dispatched (FsTree.dir "books" (FsForest.cons (FsTree.file ".epub") FsForest.nil)) =
      [] := by decide
example :
    dispatched (FsTree.dir "books" (FsForest.cons (FsTree.file "a.epub") FsForest.nil)) =
      [("/books/a.epub", "a.epub", true)] := by decide

/-! ### Analysis vocabulary for the normalization proofs -/

/-- Modelled from the claim wording for C6: split the (whitespace-collapsed)
string at its single comma into `(family, given)` — family before the comma,
given after it — and re-render as `"{given} {family}"` with both parts
trimmed. -/
def renderSwapSpec (u : List Char) : List Char :=
  rustTrim ((u.dropWhile (fun c => !(c == ','))).drop 1) ++
    ' ' :: rustTrim (u.takeWhile (fun c => !(c == ',')))

/-- Every whitespace character of the string is a plain space. -/
def WsSpaces (t : List Char) : Prop := ∀ c ∈ t, rustIsWs c = true → c = ' '

/-- No two adjacent whitespace characters. -/
def NoAdjWs (t : List Char) : Prop :=
  t.Chain' (fun a b => ¬(rustIsWs a = true ∧ rustIsWs b = true))

/-- Neither end of the string is whitespace. -/
def EdgesNotWs (t : List Char) : Prop :=
  (∀ c, t.head? = some c → rustIsWs c = false) ∧
  (∀ c, t.getLast? = some c → rustIsWs c = false)

/-! ## Theorems -/

theorem better_dup_iff (old nb : Book) : better_dup old nb = true ↔ old.size < nb.size := by
  unfold better_dup
  by_cases h : nb.size > old.size <;> simp [h]

/-- **C4**: for an already-present fingerprint the resolver compares sizes: a
strictly larger record replaces the retained entry and the previously
retained location is reported as the duplicate; a smaller-or-equal record is
itself reported as the duplicate and the map is unchanged — so an equal-size
tie retains whichever entry was inserted first. -/
theorem c4_present_compare (m : DedupMap) (fp : Int) (old nb : Book)
    (hfound : mapFind m fp = some old) :
    (old.size < nb.size →
      resolve m fp nb = (mapInsert m fp nb, Outcome.Dup old.location)) ∧
    (nb.size ≤ old.size → resolve m fp nb = (m, Outcome.Dup nb.location)) ∧
    (nb.size = old.size →
      (resolve m fp nb).1 = m ∧ mapFind (resolve m fp nb).1 fp = some old ∧
      (resolve m fp nb).2 = Outcome.Dup nb.location) := by
  have hres : resolve m fp nb =
      if better_dup old nb then (mapInsert m fp nb, Outcome.Dup old.location)
      else (m, Outcome.Dup nb.location) := by
    unfold resolve
    rw [hfound]
  refine ⟨fun h => ?_, fun h => ?_, fun h => ?_⟩
  · rw [hres, if_pos ((better_dup_iff old nb).mpr h)]
  · have hb : better_dup old nb = false := by
      rcases Bool.eq_false_or_eq_true (better_dup old nb) with hb | hb
      · exact absurd ((better_dup_iff old nb).mp hb) (not_lt.mpr h)
      · exact hb
    rw [hres, hb]
    simp
  · have hb : better_dup old nb = false := by
      rcases Bool.eq_false_or_eq_true (better_dup old nb) with hb | hb
      · exact absurd ((better_dup_iff old nb).mp hb) (not_lt.mpr (le_of_eq h))
      · exact hb
    rw [hres, hb]
    simpa using hfound

theorem c4_present_compare_witness :
    mapFind [(5, ⟨"old.epub", 10⟩)] 5 = some ⟨"old.epub", 10⟩ ∧
    resolve [(5, ⟨"old.epub", 10⟩)] 5 ⟨"new.epub", 12⟩ =
      (mapInsert [(5, ⟨"old.epub", 10⟩)] 5 ⟨"new.epub", 12⟩, Outcome.Dup "old.epub") ∧
    resolve [(5, ⟨"old.epub", 10⟩)] 5 ⟨"tie.epub", 10⟩ =
      ([(5, ⟨"old.epub", 10⟩)], Outcome.Dup "tie.epub") :=
  ⟨by decide,
   (c4_present_compare [(5, ⟨"old.epub", 10⟩)] 5 ⟨"old.epub", 10⟩ ⟨"new.epub", 12⟩
      (by decide)).1 (by decide),
   (c4_present_compare [(5, ⟨"old.epub", 10⟩)] 5 ⟨"old.epub", 10⟩ ⟨"tie.epub", 10⟩
      (by decide)).2.1 (by decide)⟩

mutual
theorem walkTree_not_hidden (p : String) (t : FsTree) :
    ∀ e ∈ walkTree p t, is_hidden e.2.1 = false := by
  cases t with
  | file n =>
    intro e he
    by_cases h : is_hidden n
    · simp [walkTree, h] at he
    · simp [walkTree, h] at he
      rw [he]
      simpa using h
  | dir n cs =>
    intro e he
    by_cases h : is_hidden n
    · simp [walkTree, h] at he
    · simp [walkTree, h] at he
      rcases he with he | he
      · rw [he]
        simpa using h
      · exact walkForest_not_hidden (p ++ "/" ++ n) cs e he
theorem walkForest_not_hidden (p : String) (f : FsForest) :
    ∀ e ∈ walkForest p f, is_hidden e.2.1 = false := by
  cases f with
  | nil => intro e he; simp [walkForest] at he
  | cons t ts =>
    intro e he
    simp only [walkForest, List.mem_append] at he
    rcases he with he | he
    · exact walkTree_not_hidden p t e he
    · exact walkForest_not_hidden p ts e he
end

/-- **C10**: hidden-name filtering takes precedence over extension matching:
every entry the scanner dispatches has a file name that does not begin with
a dot, and in particular a regular file named exactly `.epub` is never
dispatched even though its name ends with `.epub`. -/
theorem c10_hidden_over_extension :
    (∀ (root : FsTree) (e : String × String × Bool), e ∈ dispatched root →
      is_hidden e.2.1 = false) ∧
    dispatched
        (FsTree.dir "books" (FsForest.cons (FsTree.file ".epub") FsForest.nil)) =
      [] := by
  constructor
  · intro root e he
    exact walkTree_not_hidden "" root e (List.mem_of_mem_filter he)
  · decide

/-! Helper lemmas about the map and one resolver step, used for C2. -/

theorem mapFind_insert_self (m : DedupMap) (fp : Int) (b : Book) :
    mapFind (mapInsert m fp b) fp = some b := by
  simp [mapInsert, mapFind]

theorem mapFind_insert_other (m : DedupMap) (fp q : Int) (b : Book) (h : q ≠ fp) :
    mapFind (mapInsert m fp b) q = mapFind m q := by
  simp [mapInsert, mapFind, Ne.symm h]

theorem resolve_find_other (m : DedupMap) (fp : Int) (nb : Book) (q : Int)
    (h : q ≠ fp) : mapFind (resolve m fp nb).1 q = mapFind m q := by
  cases hf : mapFind m fp with
  | none => simp [resolve, hf, mapFind_insert_other m fp q nb h]
  | some old =>
    by_cases hb : better_dup old nb
    · simp [resolve, hf, hb, mapFind_insert_other m fp q nb h]
    · simp [resolve, hf, hb]

theorem resolve_find_self (m : DedupMap) (fp : Int) (nb : Book) :
    ∃ b, mapFind (resolve m fp nb).1 fp = some b ∧ nb.size ≤ b.size ∧
      ∀ old, mapFind m fp = some old → old.size ≤ b.size := by
  cases hf : mapFind m fp with
  | none =>
    refine ⟨nb, ?_, le_refl _, ?_⟩
    · simp [resolve, hf, mapFind_insert_self]
    · intro old h
      exact Option.noConfusion h
  | some old =>
    by_cases hb : better_dup old nb
    · refine ⟨nb, ?_, le_refl _, ?_⟩
      · simp [resolve, hf, hb, mapFind_insert_self]
      · intro o ho
        have hoo : old = o := by injection ho
        subst hoo
        exact le_of_lt ((better_dup_iff old nb).mp hb)
    · have hle : nb.size ≤ old.size := by
        by_contra hnle
        exact hb ((better_dup_iff old nb).mpr (not_le.mp hnle))
      refine ⟨old, ?_, hle, ?_⟩
      · simp [resolve, hf, hb]
      · intro o ho
        have hoo : old = o := by injection ho
        subst hoo
        exact le_refl _

theorem resolve_kept_iff (m : DedupMap) (fp : Int) (nb : Book) :
    (resolve m fp nb).2 = Outcome.Kept ↔ mapFind m fp = none := by
  cases hf : mapFind m fp with
  | none => simp [resolve, hf]
  | some old =>
    by_cases hb : better_dup old nb
    · simp [resolve, hf, hb]
    · simp [resolve, hf, hb]

theorem resolve_keeps_present (m : DedupMap) (fp q : Int) (nb : Book)
    (h : (mapFind m q).isSome) : (mapFind (resolve m fp nb).1 q).isSome := by
  by_cases hq : q = fp
  · subst hq
    obtain ⟨b, hb, _, _⟩ := resolve_find_self m q nb
    simp [hb]
  · rw [resolve_find_other m fp nb q hq]
    exact h

theorem processSeq_cons (m : DedupMap) (r : Int × Book) (rs : List (Int × Book)) :
    processSeq m (r :: rs) =
      ((processSeq (resolve m r.1 r.2).1 rs).1,
       (r.1, (resolve m r.1 r.2).2) :: (processSeq (resolve m r.1 r.2).1 rs).2) :=
  rfl

theorem processSeq_mono (rs : List (Int × Book)) :
    ∀ (m : DedupMap) (fp : Int) (b : Book), mapFind m fp = some b →
      ∃ b2, mapFind (processSeq m rs).1 fp = some b2 ∧ b.size ≤ b2.size := by
  induction rs with
  | nil => exact fun m fp b h => ⟨b, h, le_refl _⟩
  | cons r rs ih =>
    intro m fp b h
    rw [processSeq_cons]
    by_cases hq : fp = r.1
    · subst hq
      obtain ⟨b1, hb1, _, hold⟩ := resolve_find_self m r.1 r.2
      obtain ⟨b2, hb2, hle⟩ := ih (resolve m r.1 r.2).1 r.1 b1 hb1
      exact ⟨b2, hb2, le_trans (hold b h) hle⟩
    · exact ih (resolve m r.1 r.2).1 fp b
        (by rw [resolve_find_other m r.1 r.2 fp hq]; exact h)

theorem processSeq_size_ge (rs : List (Int × Book)) :
    ∀ (m : DedupMap) (fp : Int) (b : Book),
      mapFind (processSeq m rs).1 fp = some b →
      ∀ r ∈ rs, r.1 = fp → r.2.size ≤ b.size := by
  induction rs with
  | nil =>
    intro m fp b hb r hr
    cases hr
  | cons r0 rs ih =>
    intro m fp b hb r hr hfp
    rw [processSeq_cons] at hb
    rcases List.mem_cons.mp hr with heq | hr2
    · subst heq
      subst hfp
      obtain ⟨b1, hb1, hnb, _⟩ := resolve_find_self m r.1 r.2
      obtain ⟨b2, hb2, hle⟩ := processSeq_mono rs (resolve m r.1 r.2).1 r.1 b1 hb1
      rw [hb] at hb2
      injection hb2 with hb2
      subst hb2
      exact le_trans hnb hle
    · exact ih (resolve m r0.1 r0.2).1 fp b hb r hr2 hfp

theorem keptCount_cons (fp q : Int) (o : Outcome) (outs : List (Int × Outcome)) :
    keptCount fp ((q, o) :: outs) =
      keptCount fp outs + (if q = fp ∧ o = Outcome.Kept then 1 else 0) := by
  unfold keptCount
  rw [List.countP_cons]
  congr 1
  by_cases h1 : q = fp <;> by_cases h2 : o = Outcome.Kept <;> simp [h1, h2]

theorem dupCount_cons (fp q : Int) (o : Outcome) (outs : List (Int × Outcome)) :
    dupCount fp ((q, o) :: outs) =
      dupCount fp outs + (if q = fp ∧ o ≠ Outcome.Kept then 1 else 0) := by
  unfold dupCount
  rw [List.countP_cons]
  congr 1
  by_cases h1 : q = fp
  · cases o <;> simp [h1]
  · cases o <;> simp [h1]

theorem recCount_cons (fp : Int) (r : Int × Book) (rs : List (Int × Book)) :
    recCount fp (r :: rs) = recCount fp rs + (if r.1 = fp then 1 else 0) := by
  unfold recCount
  rw [List.countP_cons]
  by_cases h : r.1 = fp <;> simp [h]

theorem processSeq_kept_present (rs : List (Int × Book)) :
    ∀ (m : DedupMap) (fp : Int), (mapFind m fp).isSome →
      keptCount fp (processSeq m rs).2 = 0 := by
  induction rs with
  | nil => intro m fp h; rfl
  | cons r rs ih =>
    intro m fp h
    rw [processSeq_cons]
    rw [show ((processSeq (resolve m r.1 r.2).1 rs).1,
        (r.1, (resolve m r.1 r.2).2) :: (processSeq (resolve m r.1 r.2).1 rs).2).2 =
        (r.1, (resolve m r.1 r.2).2) :: (processSeq (resolve m r.1 r.2).1 rs).2 from rfl]
    rw [keptCount_cons, ih (resolve m r.1 r.2).1 fp (resolve_keeps_present m r.1 fp r.2 h)]
    by_cases hq : r.1 = fp
    · subst hq
      have hne : (resolve m r.1 r.2).2 ≠ Outcome.Kept := by
        intro hk
        rw [(resolve_kept_iff m r.1 r.2).mp hk] at h
        simp at h
      simp [hne]
    · simp [hq]

theorem processSeq_kept_absent (rs : List (Int × Book)) :
    ∀ (m : DedupMap) (fp : Int), mapFind m fp = none →
      keptCount fp (processSeq m rs).2 = if 0 < recCount fp rs then 1 else 0 := by
  induction rs with
  | nil =>
    intro m fp h
    simp [processSeq, keptCount, recCount]
  | cons r rs ih =>
    intro m fp h
    rw [processSeq_cons]
    rw [show ((processSeq (resolve m r.1 r.2).1 rs).1,
        (r.1, (resolve m r.1 r.2).2) :: (processSeq (resolve m r.1 r.2).1 rs).2).2 =
        (r.1, (resolve m r.1 r.2).2) :: (processSeq (resolve m r.1 r.2).1 rs).2 from rfl]
    rw [keptCount_cons, recCount_cons]
    by_cases hq : r.1 = fp
    · subst hq
      have hk : (resolve m r.1 r.2).2 = Outcome.Kept :=
        (resolve_kept_iff m r.1 r.2).mpr h
      have hpres : (mapFind (resolve m r.1 r.2).1 r.1).isSome := by
        obtain ⟨b, hb, _, _⟩ := resolve_find_self m r.1 r.2
        simp [hb]
      rw [processSeq_kept_present rs (resolve m r.1 r.2).1 r.1 hpres]
      simp [hk]
    · have h2 : mapFind (resolve m r.1 r.2).1 fp = none := by
        rw [resolve_find_other m r.1 r.2 fp (fun hh => hq hh.symm)]
        exact h
      rw [ih (resolve m r.1 r.2).1 fp h2]
      simp [hq]

theorem processSeq_total (rs : List (Int × Book)) :
    ∀ (m : DedupMap) (fp : Int),
      keptCount fp (processSeq m rs).2 + dupCount fp (processSeq m rs).2 =
        recCount fp rs := by
  induction rs with
  | nil => intro m fp; rfl
  | cons r rs ih =>
    intro m fp
    rw [processSeq_cons]
    rw [show ((processSeq (resolve m r.1 r.2).1 rs).1,
        (r.1, (resolve m r.1 r.2).2) :: (processSeq (resolve m r.1 r.2).1 rs).2).2 =
        (r.1, (resolve m r.1 r.2).2) :: (processSeq (resolve m r.1 r.2).1 rs).2 from rfl]
    rw [keptCount_cons, dupCount_cons, recCount_cons]
    have ht := ih (resolve m r.1 r.2).1 fp
    by_cases hq : r.1 = fp
    · subst hq
      cases ho : (resolve m r.1 r.2).2 with
      | Kept => simp [ho]; omega
      | Dup loc => simp [ho]; omega
    · simpa [hq] using ht

/-- **C2**: processing any sequence of records from the empty map, one
resolver call per record: every fingerprint present in the final map stores a
size at least every size submitted for it, and every fingerprint with n ≥ 1
records produces exactly one `Kept` outcome and exactly n − 1 `Duplicate`
outcomes. -/
theorem c2_dedup_invariant (rs : List (Int × Book)) :
    (∀ (fp : Int) (b : Book), mapFind (processSeq [] rs).1 fp = some b →
      ∀ r ∈ rs, r.1 = fp → r.2.size ≤ b.size) ∧
    (∀ fp : Int, 0 < recCount fp rs →
      keptCount fp (processSeq [] rs).2 = 1 ∧
      dupCount fp (processSeq [] rs).2 = recCount fp rs - 1) := by
  constructor
  · exact fun fp b hb => processSeq_size_ge rs [] fp b hb
  · intro fp hn
    have hk := processSeq_kept_absent rs [] fp rfl
    rw [if_pos hn] at hk
    have ht := processSeq_total rs [] fp
    exact ⟨hk, by omega⟩

theorem c2_dedup_invariant_witness :
    0 < recCount 5 [(5, ⟨"a", 10⟩), (5, ⟨"b", 7⟩), (5, ⟨"c", 12⟩)] ∧
    keptCount 5 (processSeq [] [(5, ⟨"a", 10⟩), (5, ⟨"b", 7⟩), (5, ⟨"c", 12⟩)]).2 = 1 ∧
    dupCount 5 (processSeq [] [(5, ⟨"a", 10⟩), (5, ⟨"b", 7⟩), (5, ⟨"c", 12⟩)]).2 =
      recCount 5 [(5, ⟨"a", 10⟩), (5, ⟨"b", 7⟩), (5, ⟨"c", 12⟩)] - 1 ∧
    mapFind (processSeq [] [(5, ⟨"a", 10⟩), (5, ⟨"b", 7⟩), (5, ⟨"c", 12⟩)]).1 5 =
      some ⟨"c", 12⟩ :=
  ⟨by decide,
   ((c2_dedup_invariant [(5, ⟨"a", 10⟩), (5, ⟨"b", 7⟩), (5, ⟨"c", 12⟩)]).2 5
      (by decide)).1,
   ((c2_dedup_invariant [(5, ⟨"a", 10⟩), (5, ⟨"b", 7⟩), (5, ⟨"c", 12⟩)]).2 5
      (by decide)).2,
   by decide⟩

/-! Helper lemmas about UTF-8 byte lengths, used for C8. -/

theorem utf8EncodeChar_length (n : Nat) :
    1 ≤ (utf8EncodeChar n).length ∧ (utf8EncodeChar n).length ≤ 4 := by
  unfold utf8EncodeChar
  split_ifs <;> simp

theorem utf8Bytes_length_bounds (l : List Char) :
    l.length ≤ (l.foldr (fun c acc => utf8EncodeChar c.toNat ++ acc) []).length ∧
    (l.foldr (fun c acc => utf8EncodeChar c.toNat ++ acc) []).length ≤
      4 * l.length := by
  induction l with
  | nil => simp
  | cons c cs ih =>
    have hc := utf8EncodeChar_length c.toNat
    simp only [List.foldr_cons, List.length_append, List.length_cons]
    omega

theorem utf8Len_bounds (s : String) :
    s.data.length ≤ utf8Len s ∧ utf8Len s ≤ 4 * s.data.length :=
  utf8Bytes_length_bounds s.data

/-- **C8** (amended): with a classifier configured, the metadata tier is used
exactly when the description is present with UTF-8 byte length over 50 — so a
51-character description always uses it and a 10-character one never does,
while a multi-byte description can reach it with 50 or fewer characters — the
metadata text is title-plus-description, and in either tier a detected
English maps to accept, any other detected language to reject, and an
inconclusive detection to accept. -/
theorem c8_two_tier_amended (detect : String → Option Language)
    (cleanFragment : String → String) (doc : EpubContent) (p1 p2 p3 : Nat)
    (bm : BookMetadata) :
    (tierOf bm = TierInput.contentSample ↔
      ¬ ∃ s, bm.description = some s ∧ 50 < utf8Len s) ∧
    (∀ s, bm.description = some s → 51 ≤ s.data.length →
      tierOf bm = TierInput.metadataText ((bm.title.getD "") ++ " " ++ s)) ∧
    (∀ s, bm.description = some s → s.data.length ≤ 10 →
      tierOf bm = TierInput.contentSample) ∧
    (bm.description = none → tierOf bm = TierInput.contentSample) ∧
    (is_english (some detect) cleanFragment (some doc) p1 p2 p3 bm =
      Except.ok
        (match detect
            (match tierOf bm with
             | TierInput.metadataText t => t
             | TierInput.contentSample =>
               cleanFragment
                 (add_content doc p3 (add_content doc p2 (add_content doc p1 "")))) with
         | some Language.English => true
         | some _ => false
         | none => true)) := by
  have hcond : isSomeAnd bm.description (fun s => utf8Len s > 50) = true ↔
      ∃ s, bm.description = some s ∧ 50 < utf8Len s := by
    cases hd : bm.description with
    | none => simp [isSomeAnd]
    | some s => simp [isSomeAnd]
  refine ⟨?_, ?_, ?_, ?_, ?_⟩
  · unfold tierOf
    by_cases hc : isSomeAnd bm.description (fun s => utf8Len s > 50)
    · rw [if_pos hc]
      constructor
      · intro h
        exact TierInput.noConfusion h
      · intro hn
        exact absurd (hcond.mp hc) hn
    · rw [if_neg hc]
      constructor
      · intro _ hex
        exact hc (hcond.mpr hex)
      · intro _
        rfl
  · intro s hs hlen
    have hb := (utf8Len_bounds s).1
    have hgt : utf8Len s > 50 := by omega
    have hc : isSomeAnd bm.description (fun s2 => utf8Len s2 > 50) = true := by
      rw [hs]
      simpa [isSomeAnd] using hgt
    unfold tierOf
    rw [if_pos hc, hs]
    simp
  · intro s hs hlen
    have hb := (utf8Len_bounds s).2
    have hc : isSomeAnd bm.description (fun s2 => utf8Len s2 > 50) = false := by
      rw [hs]
      simp [isSomeAnd]
      omega
    unfold tierOf
    rw [if_neg (by simp [hc])]
  · intro hd
    unfold tierOf
    rw [if_neg (by simp [isSomeAnd, hd])]
  · unfold is_english tierOf
    by_cases hc : isSomeAnd bm.description (fun s => utf8Len s > 50) <;> simp [hc]

/-- **C8** (counterexample to the claim as stated): a description of 26
two-byte characters has only 26 ≤ 50 characters yet still selects the
metadata tier, because the code compares `s.len()` — the UTF-8 byte length,
here 52 — against 50, not the character count. -/
theorem c8_charcount_counterexample :
    tierOf ⟨0, none, some (String.mk (List.replicate 26 (Char.ofNat 233))), none,
        none, "x.epub", 1⟩ ≠ TierInput.contentSample ∧
    (String.mk (List.replicate 26 (Char.ofNat 233))).data.length = 26 :=
  ⟨by decide, by decide⟩

theorem c8_two_tier_amended_witness :
    (⟨0, none, some "tiny desc", none, none, "x.epub", 1⟩ :
        BookMetadata).description = some "tiny desc" ∧
    "tiny desc".data.length ≤ 10 ∧
    tierOf ⟨0, none, some "tiny desc", none, none, "x.epub", 1⟩ =
      TierInput.contentSample :=
  ⟨rfl, by decide,
   (c8_two_tier_amended (fun _ => none) (fun s => s) ⟨[]⟩ 0 0 0
       ⟨0, none, some "tiny desc", none, none, "x.epub", 1⟩).2.2.1 "tiny desc" rfl
     (by decide)⟩

/-! Helper lemmas about `words`, `joinSp` and `splitComma`, used for C6/C7. -/

theorem words_cons_ws (c : Char) (cs : List Char) (h : rustIsWs c = true) :
    words (c :: cs) = words cs := by
  simp [words, h]

theorem words_singleton (c : Char) (h : rustIsWs c = false) :
    words [c] = [[c]] := by
  simp [words, h]

theorem words_cons_cons_ws (c d : Char) (cs : List Char) (hc : rustIsWs c = false)
    (hd : rustIsWs d = true) :
    words (c :: d :: cs) = [c] :: words (d :: cs) := by
  simp [words, hc, hd]

theorem words_cons_cons_not_ws (c d : Char) (cs : List Char)
    (hc : rustIsWs c = false) (hd : rustIsWs d = false) :
    words (c :: d :: cs) =
      match words (d :: cs) with
      | [] => [[c]]
      | w :: ws => (c :: w) :: ws := by
  simp [words, hc, hd]

theorem words_token (w : List Char) (hne : w ≠ [])
    (hws : ∀ c ∈ w, rustIsWs c = false) : words w = [w] := by
  induction w with
  | nil => exact absurd rfl hne
  | cons c cs ih =>
    have hc : rustIsWs c = false := hws c (List.mem_cons_self c cs)
    cases cs with
    | nil => exact words_singleton c hc
    | cons d ds =>
      have hd : rustIsWs d = false := hws d (by simp)
      rw [words_cons_cons_not_ws c d ds hc hd,
        ih (by simp) (fun x hx => hws x (List.mem_cons_of_mem c hx))]

theorem words_append_sep (w : List Char) (hne : w ≠ [])
    (hws : ∀ c ∈ w, rustIsWs c = false) (d : Char) (hd : rustIsWs d = true)
    (rest : List Char) :
    words (w ++ d :: rest) = w :: words rest := by
  induction w with
  | nil => exact absurd rfl hne
  | cons c cs ih =>
    have hc : rustIsWs c = false := hws c (List.mem_cons_self c cs)
    cases cs with
    | nil =>
      show words (c :: d :: rest) = [c] :: words rest
      rw [words_cons_cons_ws c d rest hc hd, words_cons_ws d rest hd]
    | cons e es =>
      have he : rustIsWs e = false := hws e (by simp)
      show words (c :: ((e :: es) ++ d :: rest)) = (c :: e :: es) :: words rest
      rw [show (e :: es) ++ d :: rest = e :: (es ++ d :: rest) from rfl,
        words_cons_cons_not_ws c e (es ++ d :: rest) hc he]
      rw [show e :: (es ++ d :: rest) = (e :: es) ++ d :: rest from rfl] at *
      rw [ih (by simp) (fun x hx => hws x (List.mem_cons_of_mem c hx))]

theorem words_sound (l : List Char) :
    ∀ w ∈ words l, w ≠ [] ∧ ∀ c ∈ w, rustIsWs c = false := by
  induction l with
  | nil =>
    intro w hw
    simp [words] at hw
  | cons c cs ih =>
    intro w hw
    by_cases hc : rustIsWs c
    · rw [words_cons_ws c cs hc] at hw
      exact ih w hw
    · have hc2 : rustIsWs c = false := by simpa using hc
      cases cs with
      | nil =>
        rw [words_singleton c hc2, List.mem_singleton] at hw
        subst hw
        refine ⟨by simp, ?_⟩
        intro x hx
        rw [List.mem_singleton] at hx
        subst hx
        exact hc2
      | cons d ds =>
        by_cases hd : rustIsWs d
        · rw [words_cons_cons_ws c d ds hc2 hd] at hw
          rcases List.mem_cons.mp hw with rfl | hw2
          · refine ⟨by simp, ?_⟩
            intro x hx
            rw [List.mem_singleton] at hx
            subst hx
            exact hc2
          · exact ih w hw2
        · have hd2 : rustIsWs d = false := by simpa using hd
          rw [words_cons_cons_not_ws c d ds hc2 hd2] at hw
          rcases hwcs : words (d :: ds) with _ | ⟨w1, ws1⟩
          · rw [hwcs] at hw
            rw [show (match ([] : List (List Char)) with
                | [] => [[c]]
                | w :: ws => (c :: w) :: ws) = [[c]] from rfl, List.mem_singleton] at hw
            subst hw
            refine ⟨by simp, ?_⟩
            intro x hx
            rw [List.mem_singleton] at hx
            subst hx
            exact hc2
          · rw [hwcs] at hw
            rw [show (match w1 :: ws1 with
                | [] => [[c]]
                | w :: ws => (c :: w) :: ws) = (c :: w1) :: ws1 from rfl] at hw
            rcases List.mem_cons.mp hw with rfl | hw2
            · have h1 := ih w1 (by rw [hwcs]; exact List.mem_cons_self w1 ws1)
              refine ⟨by simp, ?_⟩
              intro x hx
              rcases List.mem_cons.mp hx with rfl | hx2
              · exact hc2
              · exact h1.2 x hx2
            · exact ih w (by rw [hwcs]; exact List.mem_cons_of_mem w1 hw2)

theorem words_joinSp (W : List (List Char))
    (hW : ∀ w ∈ W, w ≠ [] ∧ ∀ c ∈ w, rustIsWs c = false) :
    words (joinSp W) = W := by
  induction W with
  | nil => rfl
  | cons w ws ih =>
    cases ws with
    | nil =>
      obtain ⟨h1, h2⟩ := hW w (by simp)
      exact words_token w h1 h2
    | cons v vs =>
      obtain ⟨h1, h2⟩ := hW w (by simp)
      have hrest : ∀ u ∈ v :: vs, u ≠ [] ∧ ∀ c ∈ u, rustIsWs c = false :=
        fun u hu => hW u (List.mem_cons_of_mem w hu)
      rw [show joinSp (w :: v :: vs) = w ++ ' ' :: joinSp (v :: vs) from rfl]
      rw [words_append_sep w h1 h2 ' ' (by decide) (joinSp (v :: vs))]
      rw [ih hrest]

theorem collapse_idem (l : List Char) : collapse (collapse l) = collapse l := by
  unfold collapse
  rw [words_joinSp (words l) (words_sound l)]

theorem splitComma_cons_comma (cs : List Char) :
    splitComma (',' :: cs) = [] :: splitComma cs := by
  simp [splitComma]

theorem splitComma_cons_other (c : Char) (cs : List Char) (h : ¬(c = ',')) :
    splitComma (c :: cs) =
      match splitComma cs with
      | p :: ps => (c :: p) :: ps
      | [] => [[c]] := by
  simp [splitComma, h]

theorem splitComma_no_comma (l : List Char) (h : l.count ',' = 0) :
    splitComma l = [l] := by
  induction l with
  | nil => rfl
  | cons c cs ih =>
    rw [List.count_cons] at h
    by_cases hc : c = ','
    · subst hc
      simp at h
    · have hcs : cs.count ',' = 0 := by simpa [hc] using h
      rw [splitComma_cons_other c cs hc, ih hcs]

theorem splitComma_one (l : List Char) (h : l.count ',' = 1) :
    ∃ p0 p1, splitComma l = [p0, p1] ∧ l = p0 ++ ',' :: p1 ∧
      p0.count ',' = 0 ∧ p1.count ',' = 0 := by
  induction l with
  | nil => simp at h
  | cons c cs ih =>
    rw [List.count_cons] at h
    by_cases hc : c = ','
    · subst hc
      have hcs : cs.count ',' = 0 := by simpa using h
      refine ⟨[], cs, ?_, by simp, by simp, hcs⟩
      rw [splitComma_cons_comma, splitComma_no_comma cs hcs]
    · have hcs : cs.count ',' = 1 := by simpa [hc] using h
      obtain ⟨p0, p1, hsp, hdec, h0, h1⟩ := ih hcs
      refine ⟨c :: p0, p1, ?_, ?_, ?_, h1⟩
      · rw [splitComma_cons_other c cs hc, hsp]
      · rw [show (c :: p0) ++ ',' :: p1 = c :: (p0 ++ ',' :: p1) from rfl, ← hdec]
      · rw [List.count_cons, h0]
        simp [hc]

/-! Helper lemmas about `takeWhile`, `dropWhile`, `rustTrim` and the
collapsed-shape predicates, used for C6/C7. -/

theorem takeWhile_append_first {p : Char → Bool} (a : List Char) (x : Char)
    (r : List Char) (ha : ∀ c ∈ a, p c = true) (hx : p x = false) :
    (a ++ x :: r).takeWhile p = a ∧ (a ++ x :: r).dropWhile p = x :: r := by
  induction a with
  | nil => simp [List.takeWhile_cons, List.dropWhile_cons, hx]
  | cons c cs ih =>
    have hc : p c = true := ha c (by simp)
    have ihh := ih (fun d hd => ha d (List.mem_cons_of_mem c hd))
    simp [List.takeWhile_cons, List.dropWhile_cons, hc, ihh.1, ihh.2]

theorem dropWhile_head_false {p : Char → Bool} (l : List Char) (c : Char)
    (h : (l.dropWhile p).head? = some c) : p c = false := by
  induction l with
  | nil => simp [List.dropWhile_nil] at h
  | cons a as ih =>
    by_cases hp : p a
    · rw [List.dropWhile_cons, if_pos hp] at h
      exact ih h
    · rw [List.dropWhile_cons, if_neg hp] at h
      injection h with h
      subst h
      simpa using hp

theorem mem_of_mem_dropWhile {p : Char → Bool} (l : List Char) (c : Char)
    (h : c ∈ l.dropWhile p) : c ∈ l :=
  (List.dropWhile_suffix p).sublist.subset h

theorem mem_of_getLast?_eq (l : List Char) (c : Char) (h : l.getLast? = some c) :
    c ∈ l := by
  obtain ⟨hne, heq⟩ := List.mem_getLast?_eq_getLast (Option.mem_def.mpr h)
  rw [heq]
  exact List.getLast_mem hne

theorem head?_append_left {α : Type} (a b : List α) (h : a ≠ []) :
    (a ++ b).head? = a.head? := by
  cases a with
  | nil => exact absurd rfl h
  | cons x xs => rfl

theorem trimEnd_eq_append (x : List Char) : ∃ q, trimEnd x ++ q = x := by
  obtain ⟨q1, hq1⟩ := List.dropWhile_suffix (l := x.reverse) rustIsWs
  refine ⟨q1.reverse, ?_⟩
  unfold trimEnd
  rw [← List.reverse_append, hq1, List.reverse_reverse]

theorem rustTrim_subset (t : List Char) : ∀ c ∈ rustTrim t, c ∈ t := by
  intro c hc
  unfold rustTrim trimEnd at hc
  rw [List.mem_reverse] at hc
  have hc2 := mem_of_mem_dropWhile _ c hc
  rw [List.mem_reverse] at hc2
  exact mem_of_mem_dropWhile _ c hc2

theorem rustTrim_edges (t : List Char) (hne : rustTrim t ≠ []) :
    (∀ c, (rustTrim t).head? = some c → rustIsWs c = false) ∧
    (∀ c, (rustTrim t).getLast? = some c → rustIsWs c = false) := by
  constructor
  · intro c hc
    obtain ⟨q, hq⟩ := trimEnd_eq_append (t.dropWhile rustIsWs)
    have hq2 : rustTrim t ++ q = t.dropWhile rustIsWs := hq
    have hh : (t.dropWhile rustIsWs).head? = some c := by
      rw [← hq2, head?_append_left _ q hne]
      exact hc
    exact dropWhile_head_false t c hh
  · intro c hc
    unfold rustTrim trimEnd at hc
    rw [List.getLast?_reverse] at hc
    exact dropWhile_head_false _ c hc

theorem chain'_swap (l : List Char)
    (h : l.Chain' (fun a b => ¬(rustIsWs a = true ∧ rustIsWs b = true))) :
    l.reverse.Chain' (fun a b => ¬(rustIsWs a = true ∧ rustIsWs b = true)) := by
  rw [List.chain'_reverse]
  exact h.imp (fun a b hab => fun hba => hab ⟨hba.2, hba.1⟩)

theorem chain'_of_dropWhile {p : Char → Bool} (l : List Char)
    (h : l.Chain' (fun a b => ¬(rustIsWs a = true ∧ rustIsWs b = true))) :
    (l.dropWhile p).Chain' (fun a b => ¬(rustIsWs a = true ∧ rustIsWs b = true)) := by
  obtain ⟨q, hq⟩ := List.dropWhile_suffix (l := l) p
  rw [← hq] at h
  exact (List.chain'_append.mp h).2.1

theorem rustTrim_chain' (t : List Char) (h : NoAdjWs t) : NoAdjWs (rustTrim t) := by
  unfold NoAdjWs at *
  unfold rustTrim trimEnd
  exact chain'_swap _ (chain'_of_dropWhile _ (chain'_swap _ (chain'_of_dropWhile _ h)))

theorem chain'_of_all_not_ws (w : List Char) (h : ∀ c ∈ w, rustIsWs c = false) :
    NoAdjWs w := by
  induction w with
  | nil => exact List.chain'_nil
  | cons c cs ih =>
    show (c :: cs).Chain' _
    rw [List.chain'_cons']
    refine ⟨?_, ih (fun x hx => h x (List.mem_cons_of_mem c hx))⟩
    intro y hy hcontra
    rw [h c (List.mem_cons_self c cs)] at hcontra
    exact Bool.noConfusion hcontra.1

theorem props_of_wsfree (w : List Char) (h : ∀ c ∈ w, rustIsWs c = false) :
    WsSpaces w ∧ NoAdjWs w ∧ EdgesNotWs w := by
  refine ⟨?_, chain'_of_all_not_ws w h, ?_, ?_⟩
  · intro c hc hws
    rw [h c hc] at hws
    exact Bool.noConfusion hws
  · intro c hc
    exact h c (List.mem_of_mem_head? (Option.mem_def.mpr hc))
  · intro c hc
    exact h c (mem_of_getLast?_eq w c hc)

theorem append_sep_props (a b : List Char)
    (ha : WsSpaces a ∧ NoAdjWs a ∧ EdgesNotWs a) (hane : a ≠ [])
    (hb : WsSpaces b ∧ NoAdjWs b ∧ EdgesNotWs b) (hbne : b ≠ []) :
    WsSpaces (a ++ ' ' :: b) ∧ NoAdjWs (a ++ ' ' :: b) ∧
      EdgesNotWs (a ++ ' ' :: b) := by
  refine ⟨?_, ?_, ?_, ?_⟩
  · intro c hc hws
    rcases List.mem_append.mp hc with h1 | h2
    · exact ha.1 c h1 hws
    · rcases List.mem_cons.mp h2 with rfl | h3
      · rfl
      · exact hb.1 c h3 hws
  · show (a ++ ' ' :: b).Chain' _
    rw [List.chain'_append]
    refine ⟨ha.2.1, ?_, ?_⟩
    · rw [List.chain'_cons']
      refine ⟨?_, hb.2.1⟩
      intro y hy hcontra
      rw [hb.2.2.1 y (Option.mem_def.mp hy)] at hcontra
      exact Bool.noConfusion hcontra.2
    · intro x hx y hy
      intro hcontra
      rw [ha.2.2.2 x (Option.mem_def.mp hx)] at hcontra
      exact Bool.noConfusion hcontra.1
  · intro c hc
    rw [head?_append_left a (' ' :: b) hane] at hc
    exact ha.2.2.1 c hc
  · intro c hc
    rw [show a ++ ' ' :: b = (a ++ [' ']) ++ b from by simp] at hc
    rw [List.getLast?_append_of_ne_nil (a ++ [' ']) hbne] at hc
    exact hb.2.2.2 c hc

theorem joinSp_ne_nil (v : List Char) (vs : List (List Char)) (hv : v ≠ []) :
    joinSp (v :: vs) ≠ [] := by
  cases vs with
  | nil => exact hv
  | cons w ws =>
    show v ++ ' ' :: joinSp (w :: ws) ≠ []
    simp

theorem joinSp_props (W : List (List Char))
    (hW : ∀ w ∈ W, w ≠ [] ∧ ∀ c ∈ w, rustIsWs c = false) :
    WsSpaces (joinSp W) ∧ NoAdjWs (joinSp W) ∧ EdgesNotWs (joinSp W) := by
  induction W with
  | nil =>
    refine ⟨?_, List.chain'_nil, ?_, ?_⟩
    · intro c hc
      simp [joinSp] at hc
    · intro c hc
      exact Option.noConfusion hc
    · intro c hc
      exact Option.noConfusion hc
  | cons w ws ih =>
    cases ws with
    | nil =>
      obtain ⟨h1, h2⟩ := hW w (by simp)
      exact props_of_wsfree w h2
    | cons v vs =>
      obtain ⟨h1, h2⟩ := hW w (by simp)
      have hv := hW v (by simp)
      have ihp := ih (fun u hu => hW u (List.mem_cons_of_mem w hu))
      exact append_sep_props w (joinSp (v :: vs)) (props_of_wsfree w h2) h1 ihp
        (joinSp_ne_nil v vs hv.1)

theorem collapse_props (l : List Char) :
    WsSpaces (collapse l) ∧ NoAdjWs (collapse l) ∧ EdgesNotWs (collapse l) :=
  joinSp_props (words l) (words_sound l)

/-- Strings that are whitespace-collapsed in shape (all whitespace is a
single interior space) are fixed points of `collapse`. -/
theorem collapse_fix : ∀ (n : Nat) (t : List Char), t.length ≤ n →
    WsSpaces t → NoAdjWs t → EdgesNotWs t → collapse t = t := by
  intro n
  induction n with
  | zero =>
    intro t hlen _ _ _
    rw [List.length_eq_zero.mp (Nat.le_zero.mp hlen)]
    rfl
  | succ n ih =>
    intro t hlen hw hn he
    cases t with
    | nil => rfl
    | cons c cs =>
      by_cases hall : ∀ x ∈ c :: cs, rustIsWs x = false
      · unfold collapse
        rw [words_token (c :: cs) (by simp) hall]
        rfl
      · have hsplit : (c :: cs).takeWhile (fun x => !rustIsWs x) ++
            (c :: cs).dropWhile (fun x => !rustIsWs x) = c :: cs :=
          List.takeWhile_append_dropWhile (fun x => !rustIsWs x) (c :: cs)
        have hrne : (c :: cs).dropWhile (fun x => !rustIsWs x) ≠ [] := by
          intro hre
          apply hall
          intro x hx
          have hx2 := List.dropWhile_eq_nil_iff.mp hre x hx
          simpa using hx2
        rcases hrd : (c :: cs).dropWhile (fun x => !rustIsWs x) with _ | ⟨d, r⟩
        · exact absurd hrd hrne
        · have hdws : rustIsWs d = true := by
            have hh : ((c :: cs).dropWhile (fun x => !rustIsWs x)).head? = some d := by
              rw [hrd]
              rfl
            have hd0 := dropWhile_head_false (c :: cs) d hh
            simpa using hd0
          have hdmem : d ∈ c :: cs :=
            mem_of_mem_dropWhile (c :: cs) d (by rw [hrd]; simp)
          have hdsp : d = ' ' := hw d hdmem hdws
          subst hdsp
          have hrne2 : r ≠ [] := by
            intro hr0
            subst hr0
            have hLast : (c :: cs).getLast? = some ' ' := by
              conv_lhs => rw [← hsplit, hrd]
              exact List.getLast?_concat _
            have hl2 := he.2 ' ' hLast
            rw [show rustIsWs ' ' = true from by decide] at hl2
            exact Bool.noConfusion hl2
          have htokne : (c :: cs).takeWhile (fun x => !rustIsWs x) ≠ [] := by
            have hcw : rustIsWs c = false := he.1 c rfl
            simp [List.takeWhile_cons, hcw]
          have htokws : ∀ x ∈ (c :: cs).takeWhile (fun x => !rustIsWs x),
              rustIsWs x = false := by
            intro x hx
            have hx2 := List.mem_takeWhile_imp hx
            simpa using hx2
          have hteq : (c :: cs) =
              (c :: cs).takeWhile (fun x => !rustIsWs x) ++ ' ' :: r := by
            conv_lhs => rw [← hsplit, hrd]
          have hrsub : ∀ x ∈ r, x ∈ c :: cs := by
            intro x hx
            rw [hteq]
            exact List.mem_append_right _ (List.mem_cons_of_mem ' ' hx)
          have hwr : WsSpaces r := fun x hx hxe => hw x (hrsub x hx) hxe
          have hchain : NoAdjWs (' ' :: r) := by
            have h0 : NoAdjWs (c :: cs) := hn
            rw [show NoAdjWs (c :: cs) =
              ((c :: cs).takeWhile (fun x => !rustIsWs x) ++ ' ' :: r).Chain'
                (fun a b => ¬(rustIsWs a = true ∧ rustIsWs b = true)) from by
                rw [NoAdjWs, ← hteq]] at h0
            exact (List.chain'_append.mp h0).2.1
          have hnr : NoAdjWs r := (List.chain'_cons'.mp hchain).2
          have hhead_r : ∀ x, r.head? = some x → rustIsWs x = false := by
            intro x hx
            have hrel := (List.chain'_cons'.mp hchain).1 x (Option.mem_def.mpr hx)
            rcases Bool.eq_false_or_eq_true (rustIsWs x) with h1 | h1
            · exact absurd ⟨by decide, h1⟩ hrel
            · exact h1
          have her : EdgesNotWs r := by
            refine ⟨hhead_r, ?_⟩
            intro x hx
            apply he.2 x
            rw [hteq,
              show (c :: cs).takeWhile (fun x => !rustIsWs x) ++ ' ' :: r =
                ((c :: cs).takeWhile (fun x => !rustIsWs x) ++ [' ']) ++ r from by
                simp,
              List.getLast?_append_of_ne_nil _ hrne2]
            exact hx
          have hlr : r.length ≤ n := by
            have hlen2 : ((c :: cs).takeWhile (fun x => !rustIsWs x)).length +
                (' ' :: r).length = (c :: cs).length := by
              rw [← List.length_append, ← hteq]
            simp only [List.length_cons] at hlen2 hlen
            omega
          have hcol := ih r hlr hwr hnr her
          unfold collapse
          rw [hteq, words_append_sep _ htokne htokws ' ' (by decide) r]
          have hwr_ne : words r ≠ [] := by
            intro h0
            unfold collapse at hcol
            rw [h0] at hcol
            exact hrne2 hcol.symm
          rcases hwords_r : words r with _ | ⟨w1, ws1⟩
          · exact absurd hwords_r hwr_ne
          · rw [show joinSp ((c :: cs).takeWhile (fun x => !rustIsWs x) :: w1 :: ws1) =
              (c :: cs).takeWhile (fun x => !rustIsWs x) ++ ' ' :: joinSp (w1 :: ws1)
              from rfl]
            unfold collapse at hcol
            rw [hwords_r] at hcol
            rw [hcol]

theorem unmangleL_eq_of_count_ne (l : List Char)
    (h : (collapse l).count ',' ≠ 1) : unmangleL l = collapse l := by
  simp only [unmangleL]
  rw [if_neg h]

theorem unmangleL_eq_of_count_one (l : List Char)
    (h : (collapse l).count ',' = 1) :
    unmangleL l =
      rustTrim ((splitComma (collapse l)).getD 1 []) ++
        ' ' :: rustTrim ((splitComma (collapse l)).getD 0 []) := by
  simp only [unmangleL]
  rw [if_pos h]

theorem unmangleL_idem (l : List Char)
    (h : (collapse l).count ',' = 1 →
      rustTrim ((splitComma (collapse l)).getD 0 []) ≠ [] ∧
      rustTrim ((splitComma (collapse l)).getD 1 []) ≠ []) :
    unmangleL (unmangleL l) = unmangleL l := by
  by_cases hc : (collapse l).count ',' = 1
  · obtain ⟨p0, p1, hsp, hdec, h0, h1⟩ := splitComma_one (collapse l) hc
    have hg0 : (splitComma (collapse l)).getD 0 [] = p0 := by rw [hsp]; rfl
    have hg1 : (splitComma (collapse l)).getD 1 [] = p1 := by rw [hsp]; rfl
    obtain ⟨ht0, ht1⟩ := h hc
    rw [hg0] at ht0
    rw [hg1] at ht1
    have hout : unmangleL l = rustTrim p1 ++ ' ' :: rustTrim p0 := by
      rw [unmangleL_eq_of_count_one l hc, hg0, hg1]
    rw [hout]
    obtain ⟨hwu, hnu, heu⟩ := collapse_props l
    have hsub0 : ∀ x ∈ p0, x ∈ collapse l := by
      intro x hx
      rw [hdec]
      exact List.mem_append_left _ hx
    have hsub1 : ∀ x ∈ p1, x ∈ collapse l := by
      intro x hx
      rw [hdec]
      exact List.mem_append_right _ (List.mem_cons_of_mem ',' hx)
    have hw0 : WsSpaces p0 := fun x hx he2 => hwu x (hsub0 x hx) he2
    have hw1 : WsSpaces p1 := fun x hx he2 => hwu x (hsub1 x hx) he2
    have hchainAll : (p0 ++ ',' :: p1).Chain'
        (fun a b => ¬(rustIsWs a = true ∧ rustIsWs b = true)) := by
      rw [← hdec]
      exact hnu
    have hn0 : NoAdjWs p0 := (List.chain'_append.mp hchainAll).1
    have hn1 : NoAdjWs p1 :=
      (List.chain'_cons'.mp (List.chain'_append.mp hchainAll).2.1).2
    have ht0p : WsSpaces (rustTrim p0) :=
      fun x hx he2 => hw0 x (rustTrim_subset p0 x hx) he2
    have ht1p : WsSpaces (rustTrim p1) :=
      fun x hx he2 => hw1 x (rustTrim_subset p1 x hx) he2
    have hout_props := append_sep_props (rustTrim p1) (rustTrim p0)
      ⟨ht1p, rustTrim_chain' p1 hn1, rustTrim_edges p1 ht1⟩ ht1
      ⟨ht0p, rustTrim_chain' p0 hn0, rustTrim_edges p0 ht0⟩ ht0
    have hfix := collapse_fix (rustTrim p1 ++ ' ' :: rustTrim p0).length
      (rustTrim p1 ++ ' ' :: rustTrim p0) le_rfl
      hout_props.1 hout_props.2.1 hout_props.2.2
    have hnc : (rustTrim p1 ++ ' ' :: rustTrim p0).count ',' = 0 := by
      rw [List.count_eq_zero]
      intro hmem
      rcases List.mem_append.mp hmem with hm1 | hm2
      · exact (List.count_eq_zero.mp h1) (rustTrim_subset p1 ',' hm1)
      · rcases List.mem_cons.mp hm2 with heq | hm3
        · exact absurd heq (by decide)
        · exact (List.count_eq_zero.mp h0) (rustTrim_subset p0 ',' hm3)
    have hcount_ne :
        (collapse (rustTrim p1 ++ ' ' :: rustTrim p0)).count ',' ≠ 1 := by
      rw [hfix, hnc]
      decide
    rw [unmangleL_eq_of_count_ne _ hcount_ne]
    exact hfix
  · rw [unmangleL_eq_of_count_ne l hc]
    have hcc : (collapse (collapse l)).count ',' ≠ 1 := by
      rw [collapse_idem l]
      exact hc
    rw [unmangleL_eq_of_count_ne (collapse l) hcc, collapse_idem l]

theorem renderSwap_of_one (u : List Char) (hc : u.count ',' = 1) :
    rustTrim ((splitComma u).getD 1 []) ++
      ' ' :: rustTrim ((splitComma u).getD 0 []) = renderSwapSpec u := by
  obtain ⟨p0, p1, hsp, hdec, h0, h1⟩ := splitComma_one u hc
  have hg0 : (splitComma u).getD 0 [] = p0 := by rw [hsp]; rfl
  have hg1 : (splitComma u).getD 1 [] = p1 := by rw [hsp]; rfl
  have hta := takeWhile_append_first (p := fun c => !(c == ',')) p0 ',' p1
    (fun c hcm => by
      have hne : ¬(c = ',') := fun hh => (List.count_eq_zero.mp h0) (hh ▸ hcm)
      simp [hne])
    (by simp)
  unfold renderSwapSpec
  rw [hg0, hg1, hdec, hta.1, hta.2]
  rfl

/-- **C6**: `unmangle_creator` first collapses whitespace; when the collapsed
string has exactly one comma it is split there into (family, given) and
re-rendered as `"{given} {family}"` with both parts trimmed; for any other
comma count the whitespace-collapsed string is returned unchanged — and the
claim's concrete examples hold. -/
theorem c6_normalize_characterization :
    (∀ s : String,
      ((collapse s.data).count ',' = 1 →
        (unmangle_creator s).data = renderSwapSpec (collapse s.data)) ∧
      ((collapse s.data).count ',' ≠ 1 →
        (unmangle_creator s).data = collapse s.data)) ∧
    unmangle_creator "Lovecraft, H.P." = "H.P. Lovecraft" ∧
    unmangle_creator "H.P.  Lovecraft" = "H.P. Lovecraft" ∧
    unmangle_creator "Smith, Jane, PhD" = "Smith, Jane, PhD" := by
  refine ⟨?_, by decide, by decide, by decide⟩
  intro s
  constructor
  · intro hc
    rw [show (unmangle_creator s).data = unmangleL s.data from rfl]
    rw [unmangleL_eq_of_count_one s.data hc]
    exact renderSwap_of_one (collapse s.data) hc
  · intro hc
    rw [show (unmangle_creator s).data = unmangleL s.data from rfl]
    exact unmangleL_eq_of_count_ne s.data hc

theorem c6_normalize_characterization_witness :
    (collapse ("Lovecraft, H.P.".data)).count ',' = 1 ∧
    (unmangle_creator "Lovecraft, H.P.").data =
      renderSwapSpec (collapse ("Lovecraft, H.P.".data)) :=
  ⟨by decide, (c6_normalize_characterization.1 "Lovecraft, H.P.").1 (by decide)⟩

/-- **C7** (counterexample): normalization is not idempotent on the code: for
`"a,"` the first pass produces `" a"` (the empty given-part contributes a
leading space) and the second pass collapses it away. -/
theorem c7_not_idempotent_counterexample :
    unmangle_creator (unmangle_creator "a,") ≠ unmangle_creator "a," := by
  decide

/-- **C7** (amended): normalization is idempotent for every input except
those whose whitespace-collapsed form has exactly one comma with a side that
trims to the empty string: whenever the collapsed form's comma count differs
from 1, or both comma-parts trim to nonempty strings,
`normalize (normalize x) = normalize x`. -/
theorem c7_idempotent_amended (s : String)
    (h : (collapse s.data).count ',' = 1 →
      rustTrim ((splitComma (collapse s.data)).getD 0 []) ≠ [] ∧
      rustTrim ((splitComma (collapse s.data)).getD 1 []) ≠ []) :
    unmangle_creator (unmangle_creator s) = unmangle_creator s := by
  unfold unmangle_creator
  rw [show (String.mk (unmangleL s.data)).data = unmangleL s.data from rfl]
  rw [unmangleL_idem s.data h]

theorem c7_idempotent_amended_witness :
    ((collapse ("Lovecraft, H.P.".data)).count ',' = 1 →
      rustTrim ((splitComma (collapse ("Lovecraft, H.P.".data))).getD 0 []) ≠ [] ∧
      rustTrim ((splitComma (collapse ("Lovecraft, H.P.".data))).getD 1 []) ≠ []) ∧
    unmangle_creator (unmangle_creator "Lovecraft, H.P.") =
      unmangle_creator "Lovecraft, H.P." :=
  ⟨by decide, c7_idempotent_amended "Lovecraft, H.P." (by decide)⟩

theorem c10_hidden_over_extension_witness :
    (("/books/a.epub", "a.epub", true) ∈
      dispatched
        (FsTree.dir "books" (FsForest.cons (FsTree.file "a.epub") FsForest.nil))) ∧
    is_hidden "a.epub" = false :=
  ⟨by decide,
   c10_hidden_over_extension.1
     (FsTree.dir "books" (FsForest.cons (FsTree.file "a.epub") FsForest.nil))
     ("/books/a.epub", "a.epub", true) (by decide)⟩

/-- **C1** (code-bug evidence): the claimed re-check of absence under the
write lock does not exist in `process_batch`.  Two workers submit the same
fingerprint `0` with distinct sizes 2 and 1; in the interleaving where both
pass the read-lock absence check before either write-lock insert runs, both
insert blindly and both return `Kept`: the final retained size is 1 — not the
maximum 2 — and no `Duplicate` outcome is produced for the lost record. -/
theorem c1_lost_update_race :
    mapFind (runSched (initConc [⟨0, ⟨"A", 2⟩⟩, ⟨0, ⟨"B", 1⟩⟩]) [0, 1, 0, 1]).map 0 =
        some ⟨"B", 1⟩ ∧
    (runSched (initConc [⟨0, ⟨"A", 2⟩⟩, ⟨0, ⟨"B", 1⟩⟩]) [0, 1, 0, 1]).callers.map
        (fun c => c.2) =
      [CallerPhase.finished Outcome.Kept, CallerPhase.finished Outcome.Kept] := by
  decide

/-- **C3** (counterexample): a `title` field present with an empty value list
makes `get_first_fd` panic (`vec.get(0).unwrap()`); it does not complete with
the field absent (`none`). -/
theorem c3_empty_field_panics :
    get_first_fd "title" [("title", [])] ≠ Except.ok none ∧
    get_first_fd "title" [("title", [])] =
      Except.error "panicked: called Option::unwrap on a None value" :=
  ⟨by decide, rfl⟩

/-- **C3** (amended): a field absent from the metadata map extracts as `none`
(absent, not an error) and a present field with at least one value extracts
its first value; but a field present with zero values panics the extraction
instead of being treated as absent. -/
theorem c3_zero_values_amended (md : List (String × List String))
    (fieldName : String) :
    (listLookup md fieldName = none → get_first_fd fieldName md = Except.ok none) ∧
    (∀ v vs, listLookup md fieldName = some (v :: vs) →
      get_first_fd fieldName md = Except.ok (some v)) ∧
    (listLookup md fieldName = some [] →
      get_first_fd fieldName md =
        Except.error "panicked: called Option::unwrap on a None value") := by
  refine ⟨fun h => ?_, fun v vs h => ?_, fun h => ?_⟩ <;> simp [get_first_fd, h]

theorem c3_zero_values_amended_witness :
    listLookup [("title", ["T"]), ("publisher", [])] "creator" = none ∧
    get_first_fd "creator" [("title", ["T"]), ("publisher", [])] = Except.ok none ∧
    listLookup [("title", ["T"]), ("publisher", [])] "title" = some ["T"] ∧
    get_first_fd "title" [("title", ["T"]), ("publisher", [])] = Except.ok (some "T") :=
  ⟨by decide, (c3_zero_values_amended _ "creator").1 (by decide), by decide,
   (c3_zero_values_amended _ "title").2.1 "T" [] (by decide)⟩

/-- **C5**: the fingerprint is a pure function of the ordered triple
(title, publisher, creator): records that agree on the triple hash alike (the
other fields are not hashed), and an absent field is hashed as the `Option`
discriminant rather than as an empty string, so the all-`None` triple and the
all-`Some("")` triple produce different fingerprints. -/
theorem c5_fingerprint_deterministic (bm1 bm2 : BookMetadata)
    (ht : bm1.title = bm2.title) (hp : bm1.publisher = bm2.publisher)
    (hc : bm1.creator = bm2.creator) :
    hash_md bm1 = hash_md bm2 ∧
    hash_md ⟨0, none, none, none, none, "", 0⟩ ≠
      hash_md ⟨0, some "", none, some "", some "", "", 0⟩ := by
  constructor
  · unfold hash_md
    rw [ht, hp, hc]
  · decide

theorem c5_fingerprint_deterministic_witness :
    (⟨1, some "Dune", none, some "Ace", some "Frank Herbert", "a.epub",
        500000⟩ : BookMetadata).title =
      (⟨2, some "Dune", some "d", some "Ace", some "Frank Herbert", "b.epub",
        700000⟩ : BookMetadata).title ∧
    hash_md ⟨1, some "Dune", none, some "Ace", some "Frank Herbert", "a.epub",
        500000⟩ =
      hash_md ⟨2, some "Dune", some "d", some "Ace", some "Frank Herbert",
        "b.epub", 700000⟩ :=
  ⟨rfl,
   (c5_fingerprint_deterministic
     ⟨1, some "Dune", none, some "Ace", some "Frank Herbert", "a.epub", 500000⟩
     ⟨2, some "Dune", some "d", some "Ace", some "Frank Herbert", "b.epub", 700000⟩
     rfl rfl rfl).1⟩

/-- **C9** (code-bug evidence): in the content-sampling tier, failure to
re-open the document is an `unwrap` panic that escapes the per-file closure
(`Except.error`, aborting the batch) instead of tagging the file `ERROR`; and
failure to fetch page text is silently replaced by the empty string, so that
file still goes through classification and into the dedup map with no
`ERROR` tag at all. -/
theorem c9_sampling_failure_not_per_file :
    processFile "b.epub"
        (Except.ok ⟨7, none, some "short", none, none, "b.epub", 100⟩)
        (some (fun _ => none)) (fun s => s) none 0 0 0 [] =
      Except.error "panicked: EpubDoc::new(&bm.file).unwrap() failed" ∧
    processFile "c.epub"
        (Except.ok ⟨7, none, some "short", none, none, "c.epub", 100⟩)
        (some (fun _ => none)) (fun s => s) (some ⟨[none]⟩) 0 0 0 [] =
      Except.ok ([(7, ⟨"c.epub", 100⟩)], []) :=
  ⟨rfl, rfl⟩

end Bkgrep
